import Mathlib

/-!
# Slices and arrays of `topics/collections`

A shallow embedding of `topics/collections/slices.go` and
`topics/collections/arrays.go`.

The Go program manipulates slices, which are headers `(pointer, len, cap)` over
backing arrays that several headers may share.  The embedding keeps that sharing
explicit: a `Heap` maps a buffer identity and a slot number to an element, a
`Slice` is a header `(buf, off, len, cap)`, and every built-in the program calls
(`make`, slice expressions, indexing, `append`, `copy`) is a function on heaps
and headers.  The program's own functions `header`, `prepend`, `insertAt` and the
loops and statements of `Slice()` and `Array()` are translated statement by
statement on top of these.
-/

namespace Collections

/-! ## Data model -/

/-- Ways in which a Go statement of the program can stop with a panic. -/
inductive Panic where
  /-- The program called `panic(msg)` itself. -/
  | explicit (msg : String)
  /-- The Go runtime rejected a slice expression: `slice bounds out of range`. -/
  | sliceBounds
  /-- The Go runtime rejected an index expression: `index out of range`. -/
  | indexRange
  deriving DecidableEq, Repr

/-- A slice header: the backing buffer `buf`, the slot `off` of that buffer at
which the slice starts, its length and its capacity. -/
structure Slice where
  buf : Nat
  off : Nat
  len : Nat
  cap : Nat
  deriving DecidableEq, Repr

/-- The memory of the program: `mem b j` is the element in slot `j` of buffer `b`,
and `next` is the identity the next allocated buffer receives. -/
structure Heap (α : Type) where
  mem : Nat → Nat → α
  next : Nat

/-- Go `int` is 64 bits wide: the value an `int` expression has after wrap-around. -/
def wrapInt (z : Int) : Int := (z + 2 ^ 63) % 2 ^ 64 - 2 ^ 63

/-- Go `uintptr` is 64 bits wide. -/
def wrapUintptr (n : Nat) : Nat := n % 2 ^ 64

variable {α : Type}

/-- A heap with no buffer allocated. -/
def Heap.empty [Inhabited α] : Heap α := ⟨fun _ _ => default, 0⟩

/-- Store `v` in slot `j` of buffer `b`. -/
def Heap.write (h : Heap α) (b j : Nat) (v : α) : Heap α :=
  { h with mem := fun b' j' => if b' = b ∧ j' = j then v else h.mem b' j' }

/-- The length a slice has after one more element still fits a Go `int`. -/
def Slice.lenFits (s : Slice) : Prop := (s.len : Int) + 1 < 2 ^ 63

instance (s : Slice) : Decidable s.lenFits := by
  unfold Slice.lenFits; infer_instance

/-- The elements a slice reads, `s[0], ..., s[len(s)-1]`. -/
def view (h : Heap α) (s : Slice) : List α :=
  (List.range s.len).map fun k => h.mem s.buf (s.off + k)

/-- `header` of slices.go: pointer, length and capacity of a slice.  The pointer
is the buffer identity together with the starting slot. -/
def header (s : Slice) : (Nat × Nat) × Nat × Nat := ((s.buf, s.off), s.len, s.cap)

/-! ## Go built-ins used by the program -/

/-- Go `make([]T, len, cap)`: a fresh buffer of zero values.  Every call in the
program has `len ≤ cap`. -/
def make [Inhabited α] (h : Heap α) (len cap : Nat) : Heap α × Slice :=
  ({ mem := fun b j => if b = h.next then default else h.mem b j, next := h.next + 1 },
   ⟨h.next, 0, len, cap⟩)

/-- A slice literal `[]T{x₀, ..., xₙ₋₁}`: a fresh buffer holding exactly the
listed elements, with capacity equal to length. -/
def literal [Inhabited α] (h : Heap α) (xs : List α) : Heap α × Slice :=
  ({ mem := fun b j => if b = h.next then xs.getD j default else h.mem b j,
     next := h.next + 1 },
   ⟨h.next, 0, xs.length, xs.length⟩)

/-- Go simple slice expression `s[lo:hi]`: needs `0 ≤ lo ≤ hi ≤ cap(s)`. -/
def slice2 (s : Slice) (lo hi : Int) : Except Panic Slice :=
  if 0 ≤ lo ∧ lo ≤ hi ∧ hi ≤ (s.cap : Int) then
    .ok ⟨s.buf, s.off + lo.toNat, (hi - lo).toNat, s.cap - lo.toNat⟩
  else .error .sliceBounds

/-- Go `s[lo:]`, which is `s[lo:len(s)]`. -/
def sliceFrom (s : Slice) (lo : Int) : Except Panic Slice := slice2 s lo s.len

/-- Go full slice expression `s[lo:hi:max]`: needs `0 ≤ lo ≤ hi ≤ max ≤ cap(s)`. -/
def slice3 (s : Slice) (lo hi max : Int) : Except Panic Slice :=
  if 0 ≤ lo ∧ lo ≤ hi ∧ hi ≤ max ∧ max ≤ (s.cap : Int) then
    .ok ⟨s.buf, s.off + lo.toNat, (hi - lo).toNat, (max - lo).toNat⟩
  else .error .sliceBounds

/-- Go index expression `s[i]` read. -/
def index (h : Heap α) (s : Slice) (i : Int) : Except Panic α :=
  if 0 ≤ i ∧ i < (s.len : Int) then .ok (h.mem s.buf (s.off + i.toNat))
  else .error .indexRange

/-- Go assignment `s[i] = v`. -/
def setIndex (h : Heap α) (s : Slice) (i : Int) (v : α) : Except Panic (Heap α) :=
  if 0 ≤ i ∧ i < (s.len : Int) then .ok (h.write s.buf (s.off + i.toNat) v)
  else .error .indexRange

/-- Go `append(s, x)` for one element.  With spare capacity the element is stored
in the slot after the last one of the same buffer.  Otherwise a fresh buffer of
capacity `growslice (cap s)` receives the live elements and then `x`; the capacity
the runtime picks is a parameter. -/
def goAppend [Inhabited α] (growslice : Nat → Nat) (h : Heap α) (s : Slice) (x : α) :
    Heap α × Slice :=
  if s.len < s.cap then
    (h.write s.buf (s.off + s.len) x, { s with len := s.len + 1 })
  else
    ({ mem := fun b j =>
         if b = h.next then
           if j < s.len then h.mem s.buf (s.off + j) else if j = s.len then x else default
         else h.mem b j,
       next := h.next + 1 },
     ⟨h.next, 0, s.len + 1, growslice s.cap⟩)

/-- Go `copy(dst, src)`: moves `min(len(dst), len(src))` elements as if through a
temporary, so overlapping source and destination are handled; returns the count. -/
def goCopy (h : Heap α) (dst src : Slice) : Heap α × Nat :=
  let n := min dst.len src.len
  ({ h with mem := fun b j =>
      if b = dst.buf ∧ dst.off ≤ j ∧ j < dst.off + n then
        h.mem src.buf (src.off + (j - dst.off))
      else h.mem b j },
   n)

/-- The growth policy the specification takes as reference: capacity 1 from
capacity 0, otherwise doubling. -/
def growDouble (c : Nat) : Nat := if c = 0 then 1 else 2 * c

/-! ## slices.go -/

/-- `prepend` of slices.go. -/
def prepend [Inhabited α] (growslice : Nat → Nat) (h : Heap α) (s : Slice) (x : α) :
    Except Panic (Heap α × Slice) := do
  let (h1, s1) := goAppend growslice h s x
  let dst ← sliceFrom s1 1
  let src ← slice2 s1 0 (wrapInt ((s1.len : Int) - 1))
  let h2 := (goCopy h1 dst src).1
  let h3 ← setIndex h2 s1 0 x
  pure (h3, s1)

/-- The condition guarding `panic("index out of range")` in `insertAt`:
`i < 0 && i > len(s)`. -/
def insertAtGuard (s : Slice) (i : Int) : Bool := decide (i < 0) && decide (i > (s.len : Int))

/-- `insertAt` of slices.go. -/
def insertAt [Inhabited α] (growslice : Nat → Nat) (h : Heap α) (s : Slice) (x : α)
    (i : Int) : Except Panic (Heap α × Slice) :=
  if insertAtGuard s i then .error (.explicit "index out of range")
  else do
    let (h1, s1) := goAppend growslice h s x
    let dst ← sliceFrom s1 (wrapInt (i + 1))
    let src ← slice2 s1 i (wrapInt ((s1.len : Int) - 1))
    let h2 := (goCopy h1 dst src).1
    let h3 ← setIndex h2 s1 i x
    pure (h3, s1)

/-- The heap and slice `v := []int{1, 2, 3, 4, 5}` of `Slice()`. -/
def vInit : Heap Int × Slice := literal Heap.empty [1, 2, 3, 4, 5]

/-- The heap and slice `u := []int{10, 20, 30, 40}` of `Slice()`. -/
def uInit : Heap Int × Slice := literal Heap.empty [10, 20, 30, 40]

/-- The heap and slice `base := []int{1, 2, 3, 4, 5}` of `Slice()`. -/
def baseInit : Heap Int × Slice := literal Heap.empty [1, 2, 3, 4, 5]

/-- The heap and slice `base` of `Slice()` once `sub[1] = 99` has run. -/
def baseShared : Heap Int × Slice := literal Heap.empty [1, 2, 99, 4, 5]

/-- The heap and slice `base` of `Slice()` once `sub = append(sub, 777)` has run. -/
def baseAppended : Heap Int × Slice := literal Heap.empty [1, 2, 99, 4, 777]

/-- The heap and slice `a` of `Slice()` after `a = make([]int, 3, 5)` and
`a[0], a[1], a[2] = 10, 20, 30`. -/
def aInit : Heap Int × Slice :=
  let r := make (Heap.empty : Heap Int) 3 5
  (((r.1.write r.2.buf (r.2.off + 0) 10).write r.2.buf (r.2.off + 1) 20).write
    r.2.buf (r.2.off + 2) 30, r.2)

/-- The two append loops of `Slice()`,
`for i := ...; ...; i++ { s = append(s, i); p, ln, cp := header(s); if p != prevPtr { report; prevPtr = p } }`,
run for `count` iterations from the value `i`.  The result lists, for every iteration
that reported a reallocation, the value of `i` and the length and capacity after the
append, and gives the final heap and slice. -/
def appendLoop (growslice : Nat → Nat) :
    Nat → Nat → Heap Int → Slice → Nat × Nat → List (Nat × Nat × Nat) × Heap Int × Slice
  | 0, _, h, s, _ => ([], h, s)
  | count + 1, i, h, s, prevPtr =>
    let r := goAppend growslice h s (i : Int)
    let p := (header r.2).1
    if p ≠ prevPtr then
      let rest := appendLoop growslice count (i + 1) r.1 r.2 p
      ((i, (header r.2).2.1, (header r.2).2.2) :: rest.1, rest.2)
    else
      appendLoop growslice count (i + 1) r.1 r.2 prevPtr

/-- `s := make([]int, 0, C)`, `prevPtr, _, _ := header(s)`, then the append loop for
`i = 1, ..., n`.  `Slice()` runs it with `C = 2, n = 8` and with `C = 8, n = 8`. -/
def appendRun (growslice : Nat → Nat) (h : Heap Int) (C n : Nat) :
    List (Nat × Nat × Nat) × Heap Int × Slice :=
  let r := make h 0 C
  appendLoop growslice n 1 r.1 r.2 (header r.2).1

/-! ## arrays.go -/

/-- `len(arr)` for `var arr [4]int32`. -/
def arrLen : Nat := 4

/-- `unsafe.Sizeof(arr[0])` for an `int32` element. -/
def sizeofElem : Nat := 4

/-- `unsafe.Sizeof(arr)`: a Go array occupies its elements one after the other. -/
def sizeofArr : Nat := arrLen * sizeofElem

/-- The address `&arr[i]` of slot `i` of an array placed at address `base`:
Go lays the elements of an array out contiguously from its first element. -/
def slotAddr (base i : Nat) : Nat := base + i * sizeofElem

/-- The loop of section 2 of `Array()`: for `i = 0, ..., len(arr) - 1` the pair
`offset := uintptr(i) * unsafe.Sizeof(arr[0])`, `addr := base + offset`, computed in
`uintptr` arithmetic. -/
def offsetLoop (base : Nat) : List (Nat × Nat) :=
  (List.range arrLen).map fun i =>
    (wrapUintptr (wrapUintptr i * sizeofElem),
     wrapUintptr (base + wrapUintptr (wrapUintptr i * sizeofElem)))

/-! ## Auxiliary facts -/

theorem wrapInt_eq (z : Int) (h1 : -2 ^ 63 ≤ z) (h2 : z < 2 ^ 63) : wrapInt z = z := by
  unfold wrapInt; omega

theorem growDouble_gt (c : Nat) : c < growDouble c := by
  unfold growDouble; split <;> omega

theorem length_view (h : Heap α) (s : Slice) : (view h s).length = s.len := by
  simp [view]

theorem getElem?_view (h : Heap α) (s : Slice) (k : Nat) :
    (view h s)[k]? = if k < s.len then some (h.mem s.buf (s.off + k)) else none := by
  unfold view
  by_cases hk : k < s.len
  · simp [hk, List.getElem?_map, List.getElem?_range]
  · simp [hk]
    omega

/-- Slot by slot, the list obtained from `L` by inserting `x` before position `i`. -/
theorem getElem?_insert (L : List α) (x : α) (i k : Nat) (hi : i ≤ L.length) :
    (L.take i ++ [x] ++ L.drop i)[k]? =
      if k < i then L[k]? else if k = i then some x else L[k - 1]? := by
  have hlen : (L.take i).length = i := by simp [hi]
  by_cases h1 : k < i
  · rw [if_pos h1, List.append_assoc, List.getElem?_append_left (by omega)]
    simp [List.getElem?_take, h1]
  · rw [if_neg h1, List.append_assoc, List.getElem?_append_right (by omega), hlen]
    by_cases h2 : k = i
    · subst h2; simp
    · rw [if_neg h2]
      obtain ⟨m, rfl⟩ : ∃ m, k = i + 1 + m := ⟨k - i - 1, by omega⟩
      have e1 : i + 1 + m - i = m + 1 := by omega
      have e2 : i + 1 + m - 1 = i + m := by omega
      rw [e1, e2]
      simp

theorem goAppend_len [Inhabited α] (g : Nat → Nat) (h : Heap α) (s : Slice) (x : α) :
    (goAppend g h s x).2.len = s.len + 1 := by
  unfold goAppend; split <;> rfl

theorem goAppend_len_le_cap [Inhabited α] (g : Nat → Nat) (h : Heap α) (s : Slice) (x : α)
    (hgrow : ∀ c, c < g c) (hcap : s.len ≤ s.cap) :
    (goAppend g h s x).2.len ≤ (goAppend g h s x).2.cap := by
  unfold goAppend; split
  · simp; omega
  · have := hgrow s.cap
    simp; omega

/-- The live elements of `s` are the first `len(s)` elements of `append(s, x)`. -/
theorem goAppend_read_old [Inhabited α] (g : Nat → Nat) (h : Heap α) (s : Slice) (x : α)
    (k : Nat) (hk : k < s.len) :
    (goAppend g h s x).1.mem (goAppend g h s x).2.buf ((goAppend g h s x).2.off + k) =
      h.mem s.buf (s.off + k) := by
  unfold goAppend; split
  · simp [Heap.write]; omega
  · simp [hk]

/-- The element `append(s, x)` adds is its last one. -/
theorem goAppend_read_new [Inhabited α] (g : Nat → Nat) (h : Heap α) (s : Slice) (x : α) :
    (goAppend g h s x).1.mem (goAppend g h s x).2.buf ((goAppend g h s x).2.off + s.len) = x := by
  unfold goAppend; split
  · simp [Heap.write]
  · simp

theorem slice2_nat (s : Slice) (lo hi : Nat) (h1 : lo ≤ hi) (h2 : hi ≤ s.cap) :
    slice2 s (lo : Int) (hi : Int) = .ok ⟨s.buf, s.off + lo, hi - lo, s.cap - lo⟩ := by
  have c : (0 : Int) ≤ (lo : Int) ∧ (lo : Int) ≤ (hi : Int) ∧ (hi : Int) ≤ (s.cap : Int) := by
    omega
  have e : ((hi : Int) - (lo : Int)).toNat = hi - lo := by omega
  unfold slice2
  rw [if_pos c, e, Int.toNat_ofNat]

theorem setIndex_nat (h : Heap α) (s : Slice) (i : Nat) (v : α) (hi : i < s.len) :
    setIndex h s (i : Int) v = .ok (h.write s.buf (s.off + i) v) := by
  have c : (0 : Int) ≤ (i : Int) ∧ (i : Int) < (s.len : Int) := by omega
  unfold setIndex
  rw [if_pos c, Int.toNat_ofNat]

/-- The heap `insertAt` leaves behind, given the heap and slice its `append` produced:
the shift by `copy` followed by the store of `x`. -/
theorem insertAt_ok [Inhabited α] (g : Nat → Nat) (h : Heap α) (s : Slice) (x : α)
    (i : Nat) (hgrow : ∀ c, c < g c) (hcap : s.len ≤ s.cap) (hfit : s.lenFits)
    (hi : i ≤ s.len) :
    ∃ H : Heap α, insertAt g h s x (i : Int) = .ok (H, (goAppend g h s x).2) ∧
      H.next = (goAppend g h s x).1.next ∧
      ∀ b j, H.mem b j =
        if b = (goAppend g h s x).2.buf ∧ j = (goAppend g h s x).2.off + i then x
        else if b = (goAppend g h s x).2.buf ∧ (goAppend g h s x).2.off + i < j ∧
            j < (goAppend g h s x).2.off + s.len + 1 then
          (goAppend g h s x).1.mem b (j - 1)
        else (goAppend g h s x).1.mem b j := by
  have hlen := goAppend_len g h s x
  have hle := goAppend_len_le_cap g h s x hgrow hcap
  unfold Slice.lenFits at hfit
  rcases hA : goAppend g h s x with ⟨h1, s1⟩
  rw [hA] at hlen hle
  simp only at hlen hle ⊢
  have hg : insertAtGuard s (i : Int) = false := by
    simp [insertAtGuard]
  have hw1 : wrapInt ((i : Int) + 1) = ((i + 1 : Nat) : Int) := by
    rw [wrapInt_eq _ (by omega) (by omega)]; omega
  have hw2 : wrapInt ((s1.len : Int) - 1) = ((s.len : Nat) : Int) := by
    rw [wrapInt_eq _ (by omega) (by omega)]; omega
  have e1 := slice2_nat s1 (i + 1) s1.len (by omega) hle
  have e2 := slice2_nat s1 i s.len hi (by omega)
  refine ⟨(goCopy h1 ⟨s1.buf, s1.off + (i + 1), s1.len - (i + 1), s1.cap - (i + 1)⟩
      ⟨s1.buf, s1.off + i, s.len - i, s1.cap - i⟩).1.write s1.buf (s1.off + i) x, ?_, rfl, ?_⟩
  · unfold insertAt
    rw [hg, hA]
    simp only [sliceFrom, hw1, hw2, e1, e2, Bool.false_eq_true, if_false]
    have e3 := setIndex_nat (goCopy h1 ⟨s1.buf, s1.off + (i + 1), s1.len - (i + 1),
      s1.cap - (i + 1)⟩ ⟨s1.buf, s1.off + i, s.len - i, s1.cap - i⟩).1 s1 i x (by omega)
    change (setIndex _ s1 (i : Int) x >>= fun h3 => pure (h3, s1)) = _
    rw [e3]
    rfl
  · intro b j
    simp only [Heap.write, goCopy]
    by_cases c1 : b = s1.buf ∧ j = s1.off + i
    · rw [if_pos c1, if_pos c1]
    · rw [if_neg c1, if_neg c1]
      by_cases c2 : b = s1.buf ∧ s1.off + i < j ∧ j < s1.off + s.len + 1
      · have c3 : b = s1.buf ∧ s1.off + (i + 1) ≤ j ∧
            j < s1.off + (i + 1) + min (s1.len - (i + 1)) (s.len - i) := by
          refine ⟨c2.1, by omega, ?_⟩
          rw [Nat.min_def]; split <;> omega
        have e : s1.off + i + (j - (s1.off + (i + 1))) = j - 1 := by omega
        rw [if_pos c2, if_pos c3, c2.1, e]
      · have c3 : ¬ (b = s1.buf ∧ s1.off + (i + 1) ≤ j ∧
            j < s1.off + (i + 1) + min (s1.len - (i + 1)) (s.len - i)) := by
          intro hc
          apply c2
          refine ⟨hc.1, by omega, ?_⟩
          have := hc.2.2
          rw [Nat.min_def] at this; split at this <;> omega
        rw [if_neg c2, if_neg c3]

/-- After `insertAt(s, x, i)`, any header over the buffer of the result that starts
where the result starts reads a prefix of `S[0:i] ++ [x] ++ S[i:]`. -/
theorem view_after_insertAt [Inhabited α] (g : Nat → Nat) (h : Heap α) (s : Slice) (x : α)
    (i : Nat) (hi : i ≤ s.len) (H : Heap α)
    (hm : ∀ b j, H.mem b j =
        if b = (goAppend g h s x).2.buf ∧ j = (goAppend g h s x).2.off + i then x
        else if b = (goAppend g h s x).2.buf ∧ (goAppend g h s x).2.off + i < j ∧
            j < (goAppend g h s x).2.off + s.len + 1 then
          (goAppend g h s x).1.mem b (j - 1)
        else (goAppend g h s x).1.mem b j)
    (t : Slice) (hb : t.buf = (goAppend g h s x).2.buf) (ho : t.off = (goAppend g h s x).2.off)
    (hl : t.len ≤ s.len + 1) :
    view H t = ((view h s).take i ++ [x] ++ (view h s).drop i).take t.len := by
  apply List.ext_getElem?
  intro k
  rw [getElem?_view, List.getElem?_take]
  by_cases hk : k < t.len
  · rw [if_pos hk, if_pos hk, getElem?_insert _ _ _ _ (by rw [length_view]; exact hi), hm, hb, ho]
    by_cases h1 : k < i
    · have c1 : ¬ ((goAppend g h s x).2.buf = (goAppend g h s x).2.buf ∧
          (goAppend g h s x).2.off + k = (goAppend g h s x).2.off + i) := by omega
      have c2 : ¬ ((goAppend g h s x).2.buf = (goAppend g h s x).2.buf ∧
          (goAppend g h s x).2.off + i < (goAppend g h s x).2.off + k ∧
          (goAppend g h s x).2.off + k < (goAppend g h s x).2.off + s.len + 1) := by omega
      rw [if_neg c1, if_neg c2, if_pos h1, getElem?_view, if_pos (by omega),
        goAppend_read_old g h s x k (by omega)]
    · by_cases h2 : k = i
      · subst h2
        rw [if_pos ⟨rfl, rfl⟩, if_neg h1, if_pos rfl]
      · have c1 : ¬ ((goAppend g h s x).2.buf = (goAppend g h s x).2.buf ∧
            (goAppend g h s x).2.off + k = (goAppend g h s x).2.off + i) := by omega
        have c2 : (goAppend g h s x).2.buf = (goAppend g h s x).2.buf ∧
            (goAppend g h s x).2.off + i < (goAppend g h s x).2.off + k ∧
            (goAppend g h s x).2.off + k < (goAppend g h s x).2.off + s.len + 1 :=
          ⟨rfl, by omega, by omega⟩
        have e : (goAppend g h s x).2.off + k - 1 = (goAppend g h s x).2.off + (k - 1) := by
          omega
        rw [if_neg c1, if_pos c2, if_neg h1, if_neg h2, getElem?_view, if_pos (by omega), e,
          goAppend_read_old g h s x (k - 1) (by omega)]
  · rw [if_neg hk, if_neg hk]

/-- `prepend(s, x)` runs the same statements as `insertAt(s, x, 0)` after the guard. -/
theorem prepend_eq_insertAt [Inhabited α] (g : Nat → Nat) (h : Heap α) (s : Slice) (x : α) :
    prepend g h s x = insertAt g h s x 0 := by
  have hg : insertAtGuard s 0 = false := by simp [insertAtGuard]
  have hw : wrapInt (0 + 1) = 1 := by decide
  unfold prepend insertAt
  rw [hg, hw]
  rfl

/-- Contents, length and header of `insertAt(s, x, i)` for `i ≤ len(s)`. -/
theorem insertAt_nat [Inhabited α] (g : Nat → Nat) (h : Heap α) (s : Slice) (x : α)
    (n : Nat) (hgrow : ∀ c, c < g c) (hcap : s.len ≤ s.cap) (hfit : s.lenFits)
    (hn : n ≤ s.len) :
    ∃ h', insertAt g h s x (n : Int) = .ok (h', (goAppend g h s x).2) ∧
      view h' (goAppend g h s x).2 = (view h s).take n ++ [x] ++ (view h s).drop n := by
  obtain ⟨H, e, _, hm⟩ := insertAt_ok g h s x n hgrow hcap hfit hn
  have hv := view_after_insertAt g h s x n hn H hm (goAppend g h s x).2 rfl rfl
    (by rw [goAppend_len])
  rw [List.take_of_length_le (by simp [length_view, hn, goAppend_len]; omega)] at hv
  exact ⟨H, e, hv⟩

theorem insertAtGuard_false (s : Slice) (i : Int) : insertAtGuard s i = false := by
  simp [insertAtGuard]; omega

theorem slice2_error (s : Slice) (lo hi : Int) (e : Panic) (he : slice2 s lo hi = .error e) :
    e = .sliceBounds := by
  unfold slice2 at he
  split at he
  · cases he
  · injection he with he; exact he.symm

theorem setIndex_error (h : Heap α) (s : Slice) (i : Int) (v : α) (e : Panic)
    (he : setIndex h s i v = .error e) : e = .indexRange := by
  unfold setIndex at he
  split at he
  · cases he
  · injection he with he; exact he.symm

/-- Every failure of `insertAt` is a bounds failure raised by the runtime. -/
theorem insertAt_error [Inhabited α] (g : Nat → Nat) (h : Heap α) (s : Slice) (x : α)
    (i : Int) (e : Panic) (he : insertAt g h s x i = .error e) :
    e = .sliceBounds ∨ e = .indexRange := by
  unfold insertAt at he
  rw [insertAtGuard_false] at he
  rcases hA : goAppend g h s x with ⟨h1, s1⟩
  rw [hA] at he
  simp only [Bool.false_eq_true, if_false] at he
  cases e1 : sliceFrom s1 (wrapInt (i + 1)) with
  | error e' =>
    rw [e1] at he
    injection he with he
    subst he
    exact Or.inl (slice2_error _ _ _ _ e1)
  | ok dst =>
    rw [e1] at he
    cases e2 : slice2 s1 i (wrapInt ((s1.len : Int) - 1)) with
    | error e' =>
      change (slice2 s1 i (wrapInt ((s1.len : Int) - 1)) >>= _) = _ at he
      rw [e2] at he
      injection he with he
      subst he
      exact Or.inl (slice2_error _ _ _ _ e2)
    | ok src =>
      change (slice2 s1 i (wrapInt ((s1.len : Int) - 1)) >>= _) = _ at he
      rw [e2] at he
      cases e3 : setIndex (goCopy h1 dst src).1 s1 i x with
      | error e' =>
        change (setIndex (goCopy h1 dst src).1 s1 i x >>= _) = _ at he
        rw [e3] at he
        injection he with he
        subst he
        exact Or.inr (setIndex_error _ _ _ _ _ e3)
      | ok h3 =>
        change (setIndex (goCopy h1 dst src).1 s1 i x >>= _) = _ at he
        rw [e3] at he
        cases he

/-- An index outside `[0, len(s)]` makes the slice expression `s[i:len(s)-1]` of
`insertAt` fail. -/
theorem insertAt_out_of_range [Inhabited α] (g : Nat → Nat) (h : Heap α) (s : Slice) (x : α)
    (i : Int) (hfit : s.lenFits) (hi : i < 0 ∨ (s.len : Int) < i) :
    insertAt g h s x i = .error .sliceBounds := by
  have hlen := goAppend_len g h s x
  unfold Slice.lenFits at hfit
  unfold insertAt
  rw [insertAtGuard_false]
  rcases hA : goAppend g h s x with ⟨h1, s1⟩
  rw [hA] at hlen
  simp only at hlen
  simp only [Bool.false_eq_true, if_false]
  have hw2 : wrapInt ((s1.len : Int) - 1) = (s.len : Int) := by
    rw [wrapInt_eq _ (by omega) (by omega)]; omega
  have e2 : slice2 s1 i (s.len : Int) = .error .sliceBounds := by
    unfold slice2; rw [if_neg (by omega)]
  rw [hw2]
  cases e1 : sliceFrom s1 (wrapInt (i + 1)) with
  | error e' =>
    rw [slice2_error _ _ _ _ e1]
    rfl
  | ok dst =>
    change (slice2 s1 i (s.len : Int) >>= _) = _
    rw [e2]
    rfl

/-- A store into slot `j` of buffer `b` seen through any header `t`. -/
theorem view_write (h : Heap α) (t : Slice) (b j : Nat) (v : α) :
    view (h.write b j v) t =
      if t.buf = b ∧ t.off ≤ j then (view h t).set (j - t.off) v else view h t := by
  apply List.ext_getElem?
  intro k
  rw [getElem?_view]
  by_cases c : t.buf = b ∧ t.off ≤ j
  · rw [if_pos c, List.getElem?_set, getElem?_view, length_view]
    by_cases hk : k < t.len
    · rw [if_pos hk, if_pos hk]
      by_cases hj : j - t.off = k
      · have c2 : t.buf = b ∧ t.off + k = j := ⟨c.1, by omega⟩
        rw [if_pos hj, if_pos (by omega)]
        simp only [Heap.write]
        rw [if_pos c2]
      · have c2 : ¬ (t.buf = b ∧ t.off + k = j) := by omega
        rw [if_neg hj]
        simp only [Heap.write]
        rw [if_neg c2]
    · rw [if_neg hk, if_neg hk]
      by_cases hj : j - t.off = k
      · rw [if_pos hj, if_neg (by omega)]
      · rw [if_neg hj]
  · rw [if_neg c]
    by_cases hk : k < t.len
    · have c2 : ¬ (t.buf = b ∧ t.off + k = j) := by omega
      rw [if_pos hk, getElem?_view, if_pos hk]
      simp only [Heap.write]
      rw [if_neg c2]
    · rw [if_neg hk, getElem?_view, if_neg hk]

/-- The slice `append(s, x)` returns reads the elements of `s` followed by `x`. -/
theorem view_goAppend [Inhabited α] (g : Nat → Nat) (h : Heap α) (s : Slice) (x : α) :
    view (goAppend g h s x).1 (goAppend g h s x).2 = view h s ++ [x] := by
  apply List.ext_getElem?
  intro k
  rw [getElem?_view, goAppend_len, List.getElem?_append, length_view, getElem?_view]
  by_cases h1 : k < s.len
  · rw [if_pos (by omega), if_pos h1, if_pos h1, goAppend_read_old g h s x k h1]
  · rw [if_neg h1]
    by_cases h2 : k = s.len
    · subst h2
      rw [if_pos (by omega), goAppend_read_new]
      simp
    · rw [if_neg (by omega)]
      have : 1 ≤ k - s.len := by omega
      simp [this]

/-- The elements `s[lo:hi]` reads are those of `s` from `lo` up to `hi`. -/
theorem view_slice2 (h : Heap α) (s sub : Slice) (lo hi : Nat) (hhi : hi ≤ s.len)
    (hsub : sub = ⟨s.buf, s.off + lo, hi - lo, s.cap - lo⟩) :
    view h sub = ((view h s).take hi).drop lo := by
  subst hsub
  apply List.ext_getElem?
  intro k
  rw [getElem?_view, List.getElem?_drop, List.getElem?_take, getElem?_view]
  by_cases hk : k < hi - lo
  · have e : s.off + lo + k = s.off + (lo + k) := by omega
    simp only
    rw [if_pos hk, if_pos (by omega), if_pos (by omega), e]
  · simp only
    rw [if_neg hk]
    by_cases h2 : lo + k < hi
    · omega
    · rw [if_neg h2]

/-- While capacity lasts the append loop reports nothing and the slice stays where
it is. -/
theorem appendLoop_within_cap (g : Nat → Nat) (count : Nat) :
    ∀ (i : Nat) (h : Heap Int) (s : Slice), s.len + count ≤ s.cap →
      (appendLoop g count i h s (s.buf, s.off)).1 = [] ∧
      (header (appendLoop g count i h s (s.buf, s.off)).2.2).1 = (s.buf, s.off) ∧
      (appendLoop g count i h s (s.buf, s.off)).2.2.len = s.len + count := by
  induction count with
  | zero =>
    intro i h s _
    exact ⟨rfl, rfl, rfl⟩
  | succ c ih =>
    intro i h s hs
    have hA : goAppend g h s (i : Int) =
        (h.write s.buf (s.off + s.len) (i : Int), { s with len := s.len + 1 }) := by
      unfold goAppend
      rw [if_pos (by omega)]
    have hrec := ih (i + 1) (h.write s.buf (s.off + s.len) (i : Int))
      { s with len := s.len + 1 } (by simp only; omega)
    unfold appendLoop
    simp only [hA, header, ne_eq, not_true_eq_false, if_false]
    simp only [header] at hrec
    refine ⟨hrec.1, hrec.2.1, ?_⟩
    rw [hrec.2.2]
    omega

/-- Once the loop runs past the capacity, its first report is at the append that
found the slice full. -/
theorem appendLoop_first_report (g : Nat → Nat) (count : Nat) :
    ∀ (i : Nat) (h : Heap Int) (s : Slice), s.len ≤ s.cap → s.buf < h.next →
      s.cap - s.len < count →
      ∃ rest, (appendLoop g count i h s (s.buf, s.off)).1 =
        (i + (s.cap - s.len), s.cap + 1, g s.cap) :: rest := by
  induction count with
  | zero =>
    intro i h s _ _ hc
    omega
  | succ c ih =>
    intro i h s hcap hbuf hc
    by_cases hlt : s.len < s.cap
    · have hA : goAppend g h s (i : Int) =
          (h.write s.buf (s.off + s.len) (i : Int), { s with len := s.len + 1 }) := by
        unfold goAppend
        rw [if_pos hlt]
      obtain ⟨rest, hrec⟩ := ih (i + 1) (h.write s.buf (s.off + s.len) (i : Int))
        { s with len := s.len + 1 } (by simp only; omega) hbuf (by simp only; omega)
      refine ⟨rest, ?_⟩
      unfold appendLoop
      simp only [hA, header, ne_eq, not_true_eq_false, if_false]
      simp only at hrec
      rw [hrec]
      have e : i + 1 + (s.cap - (s.len + 1)) = i + (s.cap - s.len) := by omega
      rw [e]
    · have hne : ¬ (h.next = s.buf ∧ 0 = s.off) := by omega
      have he : s.len = s.cap := by omega
      unfold appendLoop
      unfold goAppend
      simp only [if_neg hlt, header, ne_eq, Prod.mk.injEq, hne, not_false_eq_true, if_true]
      rw [he]
      simp

/-- Cutting `L[0:i] ++ [x] ++ L[i:]` back to the length of `L` drops the last element
of `L`. -/
theorem take_insert (L : List α) (x : α) (i : Nat) (hi : i < L.length) :
    (L.take i ++ [x] ++ L.drop i).take L.length =
      L.take i ++ [x] ++ (L.take (L.length - 1)).drop i := by
  have hlen : (L.take i).length = i := by simp; omega
  apply List.ext_getElem?
  intro k
  rw [List.getElem?_take, getElem?_insert L x i k (by omega), List.append_assoc,
    List.getElem?_append, hlen]
  by_cases h1 : k < i
  · rw [if_pos (by omega), if_pos h1, if_pos h1, List.getElem?_take, if_pos h1]
  · rw [if_neg h1, if_neg h1]
    by_cases h2 : k = i
    · subst h2
      rw [if_pos hi, if_pos rfl]
      simp
    · obtain ⟨m, rfl⟩ : ∃ m, k = i + 1 + m := ⟨k - i - 1, by omega⟩
      have e1 : i + 1 + m - i = m + 1 := by omega
      have e2 : i + 1 + m - 1 = i + m := by omega
      rw [if_neg h2, e1, e2]
      simp only [List.singleton_append, List.getElem?_cons_succ]
      rw [List.getElem?_drop, List.getElem?_take]
      by_cases h3 : i + 1 + m < L.length
      · rw [if_pos h3, if_pos (by omega)]
      · rw [if_neg h3, if_neg (by omega)]

/-- Two heaps agree on what a slice reads exactly when they agree slot by slot. -/
theorem view_eq_iff (h h' : Heap α) (s : Slice) :
    view h' s = view h s ↔ ∀ k, k < s.len → h'.mem s.buf (s.off + k) = h.mem s.buf (s.off + k) := by
  constructor
  · intro e k hk
    have := congrArg (fun l => l[k]?) e
    simp only [getElem?_view, if_pos hk] at this
    exact Option.some.inj this
  · intro e
    apply List.ext_getElem?
    intro k
    rw [getElem?_view, getElem?_view]
    by_cases hk : k < s.len
    · rw [if_pos hk, if_pos hk, e k hk]
    · rw [if_neg hk, if_neg hk]

/-- Shifting `f i, ..., f (n-2)` up by one and storing `x` at `i` changes nothing
exactly when every `f i, ..., f (n-1)` already is `x`. -/
theorem shift_fixed_iff (f : Nat → α) (x : α) (i n : Nat) :
    (∀ k, k < n → (if k < i then f k else if k = i then x else f (k - 1)) = f k) ↔
      ∀ j, i ≤ j → j < n → f j = x := by
  constructor
  · intro e j hij
    induction j, hij using Nat.le_induction with
    | base =>
      intro hj
      have := e i hj
      rw [if_neg (by omega), if_pos rfl] at this
      exact this.symm
    | succ m hm ih =>
      intro hj
      have := e (m + 1) hj
      rw [if_neg (by omega), if_neg (by omega)] at this
      rw [← this]
      exact ih (by omega)
  · intro e k hk
    by_cases h1 : k < i
    · rw [if_pos h1]
    · rw [if_neg h1]
      by_cases h2 : k = i
      · rw [if_pos h2, e k (by omega) hk]
      · rw [if_neg h2, e k (by omega) hk, e (k - 1) (by omega) (by omega)]

/-- With spare capacity `insertAt(s, x, i)` works inside the buffer of `s`, and the
header `s` the caller still holds reads `S[0:i] ++ [x] ++ S[i:]` cut to `len(s)`. -/
theorem insertAt_caller_view [Inhabited α] (g : Nat → Nat) (h : Heap α) (s : Slice) (x : α)
    (i : Nat) (hgrow : ∀ c, c < g c) (hfit : s.lenFits) (hi : i ≤ s.len)
    (hlt : s.len < s.cap) :
    ∃ h', insertAt g h s x (i : Int) = .ok (h', (goAppend g h s x).2) ∧
      (goAppend g h s x).2.buf = s.buf ∧ (goAppend g h s x).2.off = s.off ∧
      view h' s = ((view h s).take i ++ [x] ++ (view h s).drop i).take s.len := by
  obtain ⟨H, e, _, hm⟩ := insertAt_ok g h s x i hgrow (by omega) hfit hi
  have hA : goAppend g h s x =
      (h.write s.buf (s.off + s.len) x, { s with len := s.len + 1 }) := by
    unfold goAppend
    rw [if_pos hlt]
  have hb : (goAppend g h s x).2.buf = s.buf := by rw [hA]
  have ho : (goAppend g h s x).2.off = s.off := by rw [hA]
  exact ⟨H, e, hb, ho,
    view_after_insertAt g h s x i hi H hm s hb.symm ho.symm (by omega)⟩

/-- Slot by slot, what the caller's header reads after an `insertAt` in place. -/
theorem caller_view_pointwise (h h' : Heap α) (s : Slice) (x : α) (i : Nat) (hi : i ≤ s.len)
    (hv : view h' s = ((view h s).take i ++ [x] ++ (view h s).drop i).take s.len)
    (k : Nat) (hk : k < s.len) :
    h'.mem s.buf (s.off + k) =
      if k < i then h.mem s.buf (s.off + k) else if k = i then x
      else h.mem s.buf (s.off + (k - 1)) := by
  have e := congrArg (fun l => l[k]?) hv
  simp only at e
  rw [getElem?_view, if_pos hk, List.getElem?_take, if_pos hk,
    getElem?_insert _ _ _ _ (by rw [length_view]; exact hi)] at e
  by_cases h1 : k < i
  · rw [if_pos h1, getElem?_view, if_pos hk] at e
    rw [if_pos h1]
    exact Option.some.inj e
  · rw [if_neg h1] at e
    rw [if_neg h1]
    by_cases h2 : k = i
    · rw [if_pos h2] at e
      rw [if_pos h2]
      exact Option.some.inj e
    · rw [if_neg h2, getElem?_view, if_pos (by omega)] at e
      rw [if_neg h2]
      exact Option.some.inj e

/-- Without spare capacity `insertAt(s, x, i)` works in a fresh buffer and leaves the
buffer of `s` as it was. -/
theorem insertAt_fresh_buffer [Inhabited α] (g : Nat → Nat) (h : Heap α) (s : Slice) (x : α)
    (i : Nat) (hgrow : ∀ c, c < g c) (hfit : s.lenFits) (hi : i ≤ s.len)
    (heq : s.len = s.cap) (hbuf : s.buf < h.next) :
    ∃ h', insertAt g h s x (i : Int) = .ok (h', (goAppend g h s x).2) ∧
      (goAppend g h s x).2.buf = h.next ∧ view h' s = view h s := by
  obtain ⟨H, e, _, hm⟩ := insertAt_ok g h s x i hgrow (by omega) hfit hi
  have hb : (goAppend g h s x).2.buf = h.next := by
    unfold goAppend
    rw [if_neg (by omega)]
  have hmem : ∀ j, (goAppend g h s x).1.mem s.buf j = h.mem s.buf j := by
    intro j
    unfold goAppend
    rw [if_neg (by omega)]
    simp only
    rw [if_neg (by omega)]
  refine ⟨H, e, hb, ?_⟩
  rw [view_eq_iff]
  intro k _
  have c1 : ¬ (s.buf = (goAppend g h s x).2.buf ∧
      s.off + k = (goAppend g h s x).2.off + i) := by
    rw [hb]; omega
  have c2 : ¬ (s.buf = (goAppend g h s x).2.buf ∧
      (goAppend g h s x).2.off + i < s.off + k ∧
      s.off + k < (goAppend g h s x).2.off + s.len + 1) := by
    rw [hb]; omega
  rw [hm, if_neg c1, if_neg c2, hmem]

/-! ## Positional insertion -/

/-- C1: for every slice `s` with `len(s) ≤ cap(s)` (spare capacity or not), every `x` and
every index `0 ≤ i ≤ len(s)`, `insertAt(s, x, i)` returns a slice whose contents are
`s[0:i] ++ [x] ++ s[i:len(s)]` and whose length is `len(s) + 1`. -/
theorem insertAt_inserts [Inhabited α] (g : Nat → Nat) (h : Heap α) (s : Slice) (x : α)
    (i : Int) (hgrow : ∀ c, c < g c) (hcap : s.len ≤ s.cap) (hfit : s.lenFits)
    (h0 : 0 ≤ i) (hi : i ≤ (s.len : Int)) :
    ∃ h' s', insertAt g h s x i = .ok (h', s') ∧
      view h' s' = (view h s).take i.toNat ++ [x] ++ (view h s).drop i.toNat ∧
      s'.len = s.len + 1 ∧ (view h' s').length = (view h s).length + 1 := by
  obtain ⟨n, rfl⟩ := Int.eq_ofNat_of_zero_le h0
  obtain ⟨H, e, hv⟩ := insertAt_nat g h s x n hgrow hcap hfit (by omega)
  refine ⟨H, _, e, ?_, goAppend_len g h s x, ?_⟩
  · rw [Int.toNat_ofNat]; exact hv
  · rw [length_view, length_view, goAppend_len]

theorem insertAt_inserts_witness :
    ∃ h' s', insertAt growDouble vInit.1 vInit.2 (999 : Int) 2 = .ok (h', s') ∧
      view h' s' = [1, 2, 999, 3, 4, 5] ∧ s'.len = 6 := by
  obtain ⟨h', s', e, hv, hl, _⟩ := insertAt_inserts growDouble vInit.1 vInit.2 (999 : Int) 2
    growDouble_gt (by decide) (by decide) (by decide) (by decide)
  exact ⟨h', s', e, by rw [hv]; decide, hl⟩

/-- C2: for every slice `s` and value `x`, `prepend(s, x)` returns a slice whose contents
are `[x] ++ s` and whose length is `len(s) + 1`, both when the `append` inside reuses the
buffer of `s` (`len(s) < cap(s)`, the shift overlaps its source) and when it moves to a
fresh buffer (`len(s) = cap(s)`). -/
theorem prepend_prepends [Inhabited α] (g : Nat → Nat) (h : Heap α) (s : Slice) (x : α)
    (hgrow : ∀ c, c < g c) (hcap : s.len ≤ s.cap) (hfit : s.lenFits) :
    ∃ h' s', prepend g h s x = .ok (h', s') ∧
      view h' s' = [x] ++ view h s ∧ s'.len = s.len + 1 ∧
      (s.len < s.cap → s'.buf = s.buf ∧ s'.off = s.off) ∧
      (s.len = s.cap → s'.buf = h.next) := by
  obtain ⟨H, e, hv⟩ := insertAt_nat g h s x 0 hgrow hcap hfit (Nat.zero_le _)
  refine ⟨H, _, by rw [prepend_eq_insertAt]; exact e, by simpa using hv,
    goAppend_len g h s x, ?_, ?_⟩
  · intro hlt
    unfold goAppend; rw [if_pos hlt]; exact ⟨rfl, rfl⟩
  · intro heq
    unfold goAppend; rw [if_neg (by omega)]

theorem prepend_prepends_witness :
    ∃ h' s', prepend growDouble uInit.1 uInit.2 (0 : Int) = .ok (h', s') ∧
      view h' s' = [0, 10, 20, 30, 40] ∧ s'.len = 5 := by
  obtain ⟨h', s', e, hv, hl, _⟩ := prepend_prepends growDouble uInit.1 uInit.2 (0 : Int)
    growDouble_gt (by decide) (by decide)
  exact ⟨h', s', e, by rw [hv]; decide, hl⟩

/-- C3: `insertAt(s, x, i)` fails if and only if `i` lies outside `[0, len(s)]`: it fails
for every `i < 0` and every `i > len(s)`, and for no `0 ≤ i ≤ len(s)`.  The failure is
the runtime bounds error of the slice expressions `s[i+1:]` and `s[i:len(s)-1]`. -/
theorem insertAt_fails_iff [Inhabited α] (g : Nat → Nat) (h : Heap α) (s : Slice) (x : α)
    (i : Int) (hgrow : ∀ c, c < g c) (hcap : s.len ≤ s.cap) (hfit : s.lenFits) :
    ((∃ e, insertAt g h s x i = .error e) ↔ (i < 0 ∨ (s.len : Int) < i)) ∧
    ((i < 0 ∨ (s.len : Int) < i) → insertAt g h s x i = .error .sliceBounds) ∧
    ((0 ≤ i ∧ i ≤ (s.len : Int)) → ∃ r, insertAt g h s x i = .ok r) := by
  have hin : (0 ≤ i ∧ i ≤ (s.len : Int)) → ∃ r, insertAt g h s x i = .ok r := by
    rintro ⟨h0, hi⟩
    obtain ⟨n, rfl⟩ := Int.eq_ofNat_of_zero_le h0
    obtain ⟨H, e, _⟩ := insertAt_nat g h s x n hgrow hcap hfit (by omega)
    exact ⟨_, e⟩
  refine ⟨⟨?_, fun ho => ⟨_, insertAt_out_of_range g h s x i hfit ho⟩⟩,
    insertAt_out_of_range g h s x i hfit, hin⟩
  rintro ⟨e, he⟩
  by_contra hc
  obtain ⟨r, hr⟩ := hin (by omega)
  rw [hr] at he
  cases he

theorem insertAt_fails_iff_witness :
    ((∃ e, insertAt growDouble vInit.1 vInit.2 (999 : Int) 6 = .error e) ↔
        ((6 : Int) < 0 ∨ ((vInit.2.len : Nat) : Int) < 6)) ∧
      insertAt growDouble vInit.1 vInit.2 (999 : Int) (-1) = .error .sliceBounds := by
  exact ⟨(insertAt_fails_iff growDouble vInit.1 vInit.2 (999 : Int) 6
      growDouble_gt (by decide) (by decide)).1,
    (insertAt_fails_iff growDouble vInit.1 vInit.2 (999 : Int) (-1)
      growDouble_gt (by decide) (by decide)).2.1 (Or.inl (by decide))⟩

/-- C9: the condition `i < 0 && i > len(s)` guarding `panic("index out of range")` in
`insertAt` is false for every `i` and every `s`, so that `panic` is never reached:
whatever the index, `insertAt` never stops with a panic raised by the program itself. -/
theorem insertAt_guard_unreachable [Inhabited α] (g : Nat → Nat) (h : Heap α) (s : Slice)
    (x : α) (i : Int) :
    insertAtGuard s i = false ∧ ∀ msg, insertAt g h s x i ≠ .error (.explicit msg) := by
  refine ⟨insertAtGuard_false s i, ?_⟩
  intro msg he
  rcases insertAt_error g h s x i _ he with e | e <;> cases e

/-! ## Sharing of the backing array -/

/-- C4: for `sub = parent[lo:hi]` with `0 ≤ lo ≤ hi ≤ len(parent)` and `k < hi - lo`,
a store `sub[k] = v` makes `parent[lo+k]` read `v` and leaves every other element of
`parent` as it was, and a store `parent[lo+k] = v` makes `sub[k]` read `v`. -/
theorem subslice_aliases (h : Heap α) (parent : Slice) (lo hi k : Nat) (v : α)
    (hlo : lo ≤ hi) (hhi : hi ≤ parent.len) (hcap : parent.len ≤ parent.cap)
    (hk : k < hi - lo) :
    ∃ sub, slice2 parent (lo : Int) (hi : Int) = .ok sub ∧
      view h sub = ((view h parent).take hi).drop lo ∧
      (∃ h', setIndex h sub (k : Int) v = .ok h' ∧
        index h' parent ((lo + k : Nat) : Int) = .ok v ∧
        view h' parent = (view h parent).set (lo + k) v ∧
        view h' sub = (view h sub).set k v) ∧
      (∃ h', setIndex h parent ((lo + k : Nat) : Int) v = .ok h' ∧
        index h' sub (k : Int) = .ok v ∧
        view h' sub = (view h sub).set k v ∧
        view h' parent = (view h parent).set (lo + k) v) := by
  refine ⟨⟨parent.buf, parent.off + lo, hi - lo, parent.cap - lo⟩,
    slice2_nat parent lo hi hlo (by omega), view_slice2 h parent _ lo hi hhi rfl, ?_, ?_⟩
  · refine ⟨_, setIndex_nat h _ k v hk, ?_, ?_, ?_⟩
    · have c : (0 : Int) ≤ ((lo + k : Nat) : Int) ∧ ((lo + k : Nat) : Int) < (parent.len : Int) := by
        omega
      unfold index
      rw [if_pos c, Int.toNat_ofNat]
      simp only [Heap.write]
      rw [if_pos ⟨trivial, by omega⟩]
    · rw [view_write, if_pos ⟨rfl, by simp only; omega⟩]
      congr 1
      simp only; omega
    · rw [view_write, if_pos ⟨rfl, by simp only; omega⟩]
      congr 1
      simp only; omega
  · refine ⟨_, setIndex_nat h parent (lo + k) v (by omega), ?_, ?_, ?_⟩
    · have c : (0 : Int) ≤ (k : Int) ∧ (k : Int) < ((hi - lo : Nat) : Int) := by omega
      unfold index
      simp only
      rw [if_pos c, Int.toNat_ofNat]
      simp only [Heap.write]
      rw [if_pos ⟨trivial, by omega⟩]
    · rw [view_write, if_pos ⟨rfl, by simp only; omega⟩]
      congr 1
      simp only; omega
    · rw [view_write, if_pos ⟨rfl, by omega⟩]
      congr 1
      omega

theorem subslice_aliases_witness :
    ∃ sub h', slice2 baseInit.2 1 4 = .ok sub ∧ view baseInit.1 sub = [2, 3, 4] ∧
      setIndex baseInit.1 sub 1 (99 : Int) = .ok h' ∧
      view h' baseInit.2 = [1, 2, 99, 4, 5] ∧ view h' sub = [2, 99, 4] := by
  obtain ⟨sub, e, hv, ⟨h', e1, _, hp, hs⟩, _⟩ :=
    subslice_aliases baseInit.1 baseInit.2 1 4 1 (99 : Int) (by decide) (by decide)
      (by decide) (by decide)
  refine ⟨sub, h', e, by rw [hv]; decide, e1, by rw [hp]; decide, ?_⟩
  rw [hs, hv]; decide

/-- C5: with `t = base[:len(base):len(base)]`, one `append(t, x)` leaves the buffer of
`base`, hence every element `base` reads, untouched, whatever the capacity of `base`;
the slice it returns reads the elements of `base` followed by `x` and lives in another
buffer. -/
theorem full_slice_append_isolated [Inhabited α] (g : Nat → Nat) (h : Heap α) (base : Slice)
    (x : α) (hcap : base.len ≤ base.cap) (hbuf : base.buf < h.next) :
    ∃ t, slice3 base 0 (base.len : Int) (base.len : Int) = .ok t ∧
      t.len = base.len ∧ t.cap = base.len ∧
      (goAppend g h t x).2.buf ≠ base.buf ∧
      (∀ j, (goAppend g h t x).1.mem base.buf j = h.mem base.buf j) ∧
      view (goAppend g h t x).1 base = view h base ∧
      view (goAppend g h t x).1 (goAppend g h t x).2 = view h base ++ [x] := by
  have c : (0 : Int) ≤ 0 ∧ (0 : Int) ≤ (base.len : Int) ∧ (base.len : Int) ≤ (base.len : Int)
      ∧ (base.len : Int) ≤ (base.cap : Int) := by omega
  have e : slice3 base 0 (base.len : Int) (base.len : Int) =
      .ok ⟨base.buf, base.off, base.len, base.len⟩ := by
    unfold slice3
    rw [if_pos c]
    simp
  have hne : h.next ≠ base.buf := by omega
  have hmem : ∀ j, (goAppend g h ⟨base.buf, base.off, base.len, base.len⟩ x).1.mem base.buf j
      = h.mem base.buf j := by
    intro j
    unfold goAppend
    simp only [lt_irrefl, if_false]
    rw [if_neg (fun hc => hne hc.symm)]
  refine ⟨_, e, rfl, rfl, ?_, hmem, ?_, ?_⟩
  · unfold goAppend
    simp only [lt_irrefl, if_false]
    exact hne
  · unfold view
    simp only [hmem]
  · rw [view_goAppend]
    rfl

theorem full_slice_append_isolated_witness :
    ∃ t, slice3 baseAppended.2 0 5 5 = .ok t ∧
      view (goAppend growDouble baseAppended.1 t (888 : Int)).1 baseAppended.2
        = [1, 2, 99, 4, 777] ∧
      view (goAppend growDouble baseAppended.1 t (888 : Int)).1
        (goAppend growDouble baseAppended.1 t (888 : Int)).2 = [1, 2, 99, 4, 777, 888] := by
  obtain ⟨t, e, _, _, _, _, hb, ht⟩ :=
    full_slice_append_isolated growDouble baseAppended.1 baseAppended.2 (888 : Int)
      (by decide) (by decide)
  exact ⟨t, e, by rw [hb]; decide, by rw [ht]; decide⟩

/-- C6: for `sub = parent[lo:hi]` with `0 ≤ lo ≤ hi < len(parent)`, whose capacity is
`cap(parent) - lo`, `append(sub, x)` allocates nothing, returns a slice of length
`hi - lo + 1` over the same buffer, and afterwards `parent[hi]` reads `x` while every
other element of `parent` is as before. -/
theorem subslice_append_overwrites [Inhabited α] (g : Nat → Nat) (h : Heap α)
    (parent : Slice) (lo hi : Nat) (x : α)
    (hlo : lo ≤ hi) (hhi : hi < parent.len) (hcap : parent.len ≤ parent.cap) :
    ∃ sub, slice2 parent (lo : Int) (hi : Int) = .ok sub ∧
      sub.cap = parent.cap - lo ∧
      (goAppend g h sub x).1.next = h.next ∧
      (goAppend g h sub x).2.buf = parent.buf ∧
      (goAppend g h sub x).2.off = parent.off + lo ∧
      (goAppend g h sub x).2.len = hi - lo + 1 ∧
      index (goAppend g h sub x).1 parent (hi : Int) = .ok x ∧
      view (goAppend g h sub x).1 parent = (view h parent).set hi x ∧
      view (goAppend g h sub x).1 (goAppend g h sub x).2 = view h sub ++ [x] := by
  have hA : goAppend g h ⟨parent.buf, parent.off + lo, hi - lo, parent.cap - lo⟩ x =
      (h.write parent.buf (parent.off + lo + (hi - lo)) x,
        ⟨parent.buf, parent.off + lo, hi - lo + 1, parent.cap - lo⟩) := by
    unfold goAppend
    simp only
    rw [if_pos (by omega)]
  refine ⟨⟨parent.buf, parent.off + lo, hi - lo, parent.cap - lo⟩,
    slice2_nat parent lo hi hlo (by omega), rfl, ?_, ?_, ?_, ?_, ?_, ?_, view_goAppend _ _ _ _⟩
  · rw [hA]; rfl
  · rw [hA]
  · rw [hA]
  · rw [hA]
  · have c : (0 : Int) ≤ (hi : Int) ∧ (hi : Int) < (parent.len : Int) := by omega
    rw [hA]
    unfold index
    rw [if_pos c, Int.toNat_ofNat]
    simp only [Heap.write]
    rw [if_pos ⟨trivial, by omega⟩]
  · rw [hA]
    simp only
    rw [view_write, if_pos ⟨rfl, by omega⟩]
    congr 1
    omega

theorem subslice_append_overwrites_witness :
    ∃ sub, slice2 baseShared.2 1 4 = .ok sub ∧
      (goAppend growDouble baseShared.1 sub (777 : Int)).2.len = 4 ∧
      view (goAppend growDouble baseShared.1 sub (777 : Int)).1 baseShared.2
        = [1, 2, 99, 4, 777] := by
  obtain ⟨sub, e, _, _, _, _, hl, _, hv, _⟩ :=
    subslice_append_overwrites growDouble baseShared.1 baseShared.2 1 4 (777 : Int)
      (by decide) (by decide) (by decide)
  exact ⟨sub, e, hl, by rw [hv]; decide⟩

/-! ## Mutation of the caller's buffer -/

/-- C10, the part that fails: the slice `a` of `Slice()` reads `[10, 20, 30]` with
capacity 5; after `insertAt(a, 30, 2)` the header `a` still reads `[10, 20, 30]`. -/
theorem insertAt_caller_view_may_persist :
    aInit.2.len < aInit.2.cap ∧ (2 : Int) < (aInit.2.len : Int) ∧
      (∃ r, insertAt growDouble aInit.1 aInit.2 (30 : Int) 2 = .ok r) ∧
      ¬ (∀ h' s', insertAt growDouble aInit.1 aInit.2 (30 : Int) 2 = .ok (h', s') →
          view h' aInit.2 ≠ view aInit.1 aInit.2) := by
  obtain ⟨H, e, _, _, hv⟩ := insertAt_caller_view growDouble aInit.1 aInit.2 (30 : Int) 2
    growDouble_gt (by decide) (by decide) (by decide)
  refine ⟨by decide, by decide, ⟨_, e⟩, ?_⟩
  intro hall
  apply hall H _ e
  rw [hv]
  decide

/-- C10 as amended: with spare capacity (`len(s) < cap(s)`) `insertAt(s, x, i)` returns a
slice over the buffer of `s`, and the header `s` the caller holds, with its old length
`n`, then reads `S[0:i] ++ [x] ++ S[i:n-1]` for `i < n`; what it reads differs from `S`
exactly when some element of `S[i:n]` is not `x`.  With `len(s) = cap(s)` the result
lives in a fresh buffer and `s` still reads `S`.  `prepend(s, x)` is the case `i = 0`. -/
theorem insertAt_aliases_caller [Inhabited α] (g : Nat → Nat) (h : Heap α) (s : Slice)
    (x : α) (i : Nat) (hgrow : ∀ c, c < g c) (hcap : s.len ≤ s.cap) (hfit : s.lenFits)
    (hi : i ≤ s.len) :
    ∃ h' s', insertAt g h s x (i : Int) = .ok (h', s') ∧
      (i = 0 → prepend g h s x = .ok (h', s')) ∧
      (s.len < s.cap →
        s'.buf = s.buf ∧ s'.off = s.off ∧
        (i < s.len →
          view h' s = (view h s).take i ++ [x] ++ ((view h s).take (s.len - 1)).drop i) ∧
        (view h' s ≠ view h s ↔ ∃ j, i ≤ j ∧ j < s.len ∧ (view h s)[j]? ≠ some x)) ∧
      (s.len = s.cap → s.buf < h.next →
        s'.buf = h.next ∧ s'.buf ≠ s.buf ∧ view h' s = view h s) := by
  obtain ⟨H, e, _, _⟩ := insertAt_ok g h s x i hgrow hcap hfit hi
  have huniq : ∀ H', insertAt g h s x (i : Int) = .ok (H', (goAppend g h s x).2) → H' = H := by
    intro H' e'
    rw [e] at e'
    exact (Prod.mk.inj (Except.ok.inj e')).1.symm
  refine ⟨H, _, e, ?_, ?_, ?_⟩
  · intro h0
    subst h0
    rw [prepend_eq_insertAt]
    exact e
  · intro hlt
    obtain ⟨H', e', hb, ho, hv⟩ := insertAt_caller_view g h s x i hgrow hfit hi hlt
    rw [huniq H' e'] at hv
    refine ⟨hb, ho, ?_, ?_⟩
    · intro hin
      have ht := take_insert (view h s) x i (by rw [length_view]; exact hin)
      rw [length_view] at ht
      rw [hv, ht]
    · have hp := caller_view_pointwise h H s x i hi hv
      have hfix : view H s = view h s ↔
          ∀ j, i ≤ j → j < s.len → h.mem s.buf (s.off + j) = x := by
        rw [view_eq_iff, ← shift_fixed_iff (fun k => h.mem s.buf (s.off + k)) x i s.len]
        constructor
        · intro hall k hk
          rw [← hp k hk]
          exact hall k hk
        · intro hall k hk
          rw [hp k hk]
          exact hall k hk
      rw [Ne, hfix]
      constructor
      · intro hne
        by_contra hcon
        apply hne
        intro j hij hj
        by_contra hx
        apply hcon
        refine ⟨j, hij, hj, ?_⟩
        rw [getElem?_view, if_pos hj]
        intro hs
        exact hx (Option.some.inj hs)
      · rintro ⟨j, hij, hj, hx⟩ hall
        apply hx
        rw [getElem?_view, if_pos hj, hall j hij hj]
  · intro heq hbuf
    obtain ⟨H', e', hb, hv⟩ := insertAt_fresh_buffer g h s x i hgrow hfit hi heq hbuf
    rw [huniq H' e'] at hv
    exact ⟨hb, by rw [hb]; omega, hv⟩

theorem insertAt_aliases_caller_witness :
    ∃ h' s', insertAt growDouble aInit.1 aInit.2 (999 : Int) 1 = .ok (h', s') ∧
      s'.buf = aInit.2.buf ∧ view h' aInit.2 = [10, 999, 20] ∧
      view h' aInit.2 ≠ view aInit.1 aInit.2 := by
  obtain ⟨h', s', e, _, hs⟩ := insertAt_aliases_caller growDouble aInit.1 aInit.2 (999 : Int) 1
    growDouble_gt (by decide) (by decide) (by decide)
  obtain ⟨hb, _, hv, hne⟩ := hs.1 (by decide)
  refine ⟨h', s', e, hb, ?_, ?_⟩
  · rw [hv (by decide)]; decide
  · rw [hne]
    exact ⟨1, by decide, by decide, by decide⟩

/-! ## Growth -/

/-- C7: an `append` changes the pointer of the slice exactly when length equals capacity
just before it.  Hence from `make([]int, 0, C)` a run of `n ≤ C` appends reports no
reallocation and ends at the pointer it started from, and a run of `n > C` appends
reports its first reallocation at append number `C + 1`. -/
theorem append_reallocates_iff_full (g : Nat → Nat) (h : Heap Int) (s : Slice) (x : Int)
    (C n : Nat) (hcap : s.len ≤ s.cap) (hbuf : s.buf < h.next) :
    ((header (goAppend g h s x).2).1 ≠ (header s).1 ↔ s.len = s.cap) ∧
    (n ≤ C → (appendRun g h C n).1 = [] ∧
      (header (appendRun g h C n).2.2).1 = (header (make h 0 C).2).1) ∧
    (C < n → ∃ rest, (appendRun g h C n).1 = (C + 1, C + 1, g C) :: rest) := by
  refine ⟨?_, ?_, ?_⟩
  · unfold goAppend header
    by_cases hlt : s.len < s.cap
    · rw [if_pos hlt]
      simp only [ne_eq, not_true_eq_false, false_iff]
      omega
    · rw [if_neg hlt]
      simp only [ne_eq, Prod.mk.injEq, not_and]
      constructor
      · intro _; omega
      · intro _ hc; omega
  · intro hn
    have := appendLoop_within_cap g n 1 (make h 0 C).1 (make h 0 C).2 (by simp [make]; omega)
    exact ⟨this.1, this.2.1⟩
  · intro hn
    obtain ⟨rest, hr⟩ := appendLoop_first_report g n 1 (make h 0 C).1 (make h 0 C).2
      (by simp [make]) (by simp [make]) (by simp [make]; omega)
    refine ⟨rest, ?_⟩
    unfold appendRun
    simp only [header]
    rw [hr]
    simp [make, Nat.add_comm]

theorem append_reallocates_iff_full_witness :
    (appendRun growDouble (Heap.empty : Heap Int) 8 8).1 = [] ∧
    (∃ rest, (appendRun growDouble (Heap.empty : Heap Int) 2 8).1 = (3, 3, 4) :: rest) ∧
    ((header (goAppend growDouble aInit.1 aInit.2 (40 : Int)).2).1 ≠ (header aInit.2).1 ↔
      aInit.2.len = aInit.2.cap) := by
  refine ⟨((append_reallocates_iff_full growDouble aInit.1 aInit.2 40 8 8
      (by decide) (by decide)).2.1 (by decide)).1,
    (append_reallocates_iff_full growDouble aInit.1 aInit.2 40 2 8
      (by decide) (by decide)).2.2 (by decide) |>.imp (fun _ e => e), ?_⟩
  exact (append_reallocates_iff_full growDouble aInit.1 aInit.2 40 2 8
      (by decide) (by decide)).1

/-! ## Fixed-size array -/

/-- C8: for the `[4]int32` array of `Array()` placed at address `base`, the loop computes
for every slot `i < 4` the offset `i * 4` and the address `base + i * 4`, which is the
address of slot `i`; the array occupies `4 * 4 = 16` bytes, so its last slot ends at
`base + 16`. -/
theorem array_layout (base i : Nat) (hfit : base + sizeofArr ≤ 2 ^ 64) (hi : i < arrLen) :
    (offsetLoop base)[i]? = some (i * sizeofElem, slotAddr base i) ∧
      slotAddr base i = base + i * 4 ∧
      sizeofArr = arrLen * sizeofElem ∧ sizeofArr = 16 ∧
      slotAddr base (arrLen - 1) + sizeofElem = base + sizeofArr := by
  have h4 : sizeofElem = 4 := rfl
  have hl : arrLen = 4 := rfl
  have h16 : sizeofArr = 16 := rfl
  rw [h16] at hfit
  rw [hl] at hi
  have w1 : wrapUintptr i = i := by unfold wrapUintptr; omega
  have w2 : wrapUintptr (i * 4) = i * 4 := by unfold wrapUintptr; omega
  have w3 : wrapUintptr (base + i * 4) = base + i * 4 := by unfold wrapUintptr; omega
  refine ⟨?_, rfl, rfl, rfl, ?_⟩
  · unfold offsetLoop slotAddr
    rw [List.getElem?_map, List.getElem?_range (by rw [hl]; exact hi), h4]
    simp only [Option.map_some']
    rw [w1, w2, w3]
  · unfold slotAddr
    rw [h4, hl, h16]

theorem array_layout_witness :
    (offsetLoop 4096)[2]? = some (8, 4104) ∧ sizeofArr = 16 := by
  have := array_layout 4096 2 (by decide) (by decide)
  exact ⟨this.1, this.2.2.2.1⟩

end Collections
